import Mathlib

/-!
Verification of the Spinecat matching/ranking engine
(`permanent_pipeline/src/core/matching.py` — legacy `BookMatcher` — and
`permanent_pipeline/src/core/matching_v2.py` — `AdvancedBookMatcher`).

The Python code is shallowly embedded: pure string manipulation is modeled on
`List Char` / `String`, floating-point scores as `ℚ` (all score arithmetic in
the source is on small decimal constants, so `ℚ` is exact), dictionaries of
named features as structures, and raising code as `Except`.  External library
functions whose numerical output the engine merely consumes
(`rapidfuzz.JaroWinkler`, the fitted sklearn vectorizers, the sentence
embedding model) are passed in as function parameters; library behavior the
engine's control flow depends on (sklearn's `min_df` pruning raising on an
empty vocabulary, `rapidfuzz.fuzz.ratio` = normalized indel similarity) is
modeled explicitly.
-/

namespace Spinecat

/-! ## Python string primitives -/

/-- Whitespace characters of Python's `str.split()` / `str.strip()` / regex `\s`
(ASCII range; the engine's strings contain no exotic Unicode whitespace). -/
def isPyWs (c : Char) : Bool :=
  c == ' ' || c == '\t' || c == '\n' || c == '\r' || c == '\x0b' || c == '\x0c'

def isUpperAZ (c : Char) : Bool := 'A' ≤ c && c ≤ 'Z'

def isDigit09 (c : Char) : Bool := '0' ≤ c && c ≤ '9'

/-- Characters kept by the advanced normalizer's `re.sub(r"[^A-Z0-9 ]+", " ", s)`. -/
def isAllowedAdv (c : Char) : Bool := isUpperAZ c || isDigit09 c || c == ' '

/-- Word characters of regex `\w` (ASCII fragment `[a-zA-Z0-9_]`; the engine's
strings are ASCII at the points where `\w` is applied). -/
def isWordChar (c : Char) : Bool := c.isAlpha || isDigit09 c || c == '_'

/-- Collapse runs of `' '` to a single `' '`.  Models `re.sub(r"\s+", " ", s)`
on a string whose whitespace characters have all been mapped to `' '` first
(replacing each whitespace character by a space and then collapsing runs of
spaces yields the same string as replacing each whitespace run by one space). -/
def squeezeL : List Char → List Char
  | [] => []
  | [c] => [c]
  | c :: d :: rest =>
    if c == ' ' && d == ' ' then squeezeL (d :: rest)
    else c :: squeezeL (d :: rest)

/-- Drop leading spaces. -/
def trimLeftSpL (l : List Char) : List Char := l.dropWhile (fun c => c == ' ')

/-- Drop trailing spaces. -/
def trimRightSpL (l : List Char) : List Char :=
  (l.reverse.dropWhile (fun c => c == ' ')).reverse

/-- Models Python `str.strip()` on a string whose only whitespace is `' '`. -/
def trimSpL (l : List Char) : List Char := trimRightSpL (trimLeftSpL l)

/-- Python `str.strip()` (general whitespace). -/
def pyStrip (s : String) : String :=
  ⟨((s.data.dropWhile isPyWs).reverse.dropWhile isPyWs).reverse⟩

/-- Python `str.lower()`, modeled per character (exact on ASCII). -/
def pyLower (s : String) : String := ⟨s.data.map Char.toLower⟩

/-- Split a character list into the maximal runs of characters satisfying `p`;
`acc` holds the reversed current run. -/
def splitRunsAux (p : Char → Bool) : List Char → List Char → List (List Char)
  | [], acc => if acc = [] then [] else [acc.reverse]
  | c :: cs, acc =>
    if p c then splitRunsAux p cs (c :: acc)
    else if acc = [] then splitRunsAux p cs []
    else acc.reverse :: splitRunsAux p cs []

/-- Python `str.split()` with no argument: maximal runs of non-whitespace. -/
def splitWsL (l : List Char) : List (List Char) :=
  splitRunsAux (fun c => !isPyWs c) l []

def pySplit (s : String) : List String := (splitWsL s.data).map (fun w => ⟨w⟩)

/-- Python `' '.join(ws)`. -/
def joinSp (ws : List String) : String := String.intercalate " " ws

/-! ## The advanced matcher's `normalize_text` (`matching_v2.py`) -/

/-- `s.replace("&", " AND ")`. -/
def replaceAmpL (l : List Char) : List Char :=
  (l.map (fun c => if c == '&' then " AND ".data else [c])).flatten

/-- `AdvancedBookMatcher.normalize_text`.  The external
`unicodedata.normalize("NFKD", ·)` + combining-mark stripping step is passed in
as `nfkd`; `str.upper()` is modeled per character (exact on ASCII).  The
source's `s.replace("'", "'")` replaces the ASCII apostrophe by itself (the
two quoted characters in that line of the source are identical) and is a
no-op, hence not represented.  The dash replacements feed characters that the
following `re.sub(r"[^A-Z0-9 ]+", " ", s)` removes anyway. -/
def normalizeTextL (nfkd : List Char → List Char) (l : List Char) : List Char :=
  if l = [] then []
  else
    let s1 := l.map Char.toUpper
    let s2 := nfkd s1
    let s3 := replaceAmpL s2
    let s4 := s3.map (fun c => if c == '–' || c == '—' then '-' else c)
    let s5 := s4.map (fun c => if isAllowedAdv c then c else ' ')
    trimSpL (squeezeL s5)

def normalizeText (nfkd : List Char → List Char) (s : String) : String :=
  ⟨normalizeTextL nfkd s.data⟩

/-! ## The legacy matcher's `_normalize_text` (`matching.py`) -/

/-- The character replacements
`text.replace('0','o').replace('1','l').replace('5','s').replace('8','b').replace('6','g')`. -/
def ocrFix (c : Char) : Char :=
  if c == '0' then 'o'
  else if c == '1' then 'l'
  else if c == '5' then 's'
  else if c == '8' then 'b'
  else if c == '6' then 'g'
  else c

/-- `BookMatcher._normalize_text`: lower-case, `re.sub(r'[^\w\s]', ' ', ·)`,
`re.sub(r'\s+', ' ', ·)`, the digit→letter OCR replacements, `strip()`. -/
def normalizeLegacyL (l : List Char) : List Char :=
  if l = [] then []
  else
    let s1 := l.map Char.toLower
    let s2 := s1.map (fun c => if isWordChar c || isPyWs c then c else ' ')
    let s3 := squeezeL (s2.map (fun c => if isPyWs c then ' ' else c))
    trimSpL (s3.map ocrFix)

def normalizeLegacy (s : String) : String := ⟨normalizeLegacyL s.data⟩

/-! ## Advanced matcher: tokens, OCR confusion variants, features, combiner -/

/-- `AdvancedBookMatcher.extract_tokens`: whitespace split, keep `len(t) > 1`. -/
def extractTokens (s : String) : List String :=
  (pySplit s).filter (fun t => 1 < t.length)

/-- `self.OCR_CONFUSIONS`, in Python dict insertion order. -/
def OCR_CONFUSIONS : List (Char × List Char) :=
  [('I', ['L', '1']), ('L', ['I', '1']), ('1', ['I', 'L']),
   ('0', ['O']), ('O', ['0']), ('5', ['S']), ('S', ['5']),
   ('8', ['B']), ('B', ['8']), ('6', ['G']), ('G', ['6']),
   ('Z', ['2']), ('2', ['Z'])]

/-- Python `text.replace(o, r)` for single characters. -/
def replaceChar (o r : Char) (s : String) : String :=
  ⟨s.data.map (fun c => if c == o then r else c)⟩

/-- Helper for `list(dict.fromkeys(variants))`: keep first occurrences. -/
def pyDedupAux : List String → List String → List String
  | [], _ => []
  | x :: xs, seen =>
    if x ∈ seen then pyDedupAux xs seen else x :: pyDedupAux xs (x :: seen)

def pyDedup (l : List String) : List String := pyDedupAux l []

/-- `AdvancedBookMatcher.generate_confusion_variants`. -/
def generateConfusionVariants (t : String) : List String :=
  let variants := OCR_CONFUSIONS.foldl
    (fun vs oc =>
      if oc.1 ∈ t.data then
        oc.2.foldl
          (fun vs2 r =>
            let v := replaceChar oc.1 r t
            if v ≠ t then vs2 ++ [v] else vs2)
          vs
      else vs)
    [t]
  pyDedup variants

/-- The feature dictionary built by
`AdvancedBookMatcher.calculate_match_features`. -/
structure MatchFeatures where
  charTfidfCosine : ℚ
  tokenSetSim : ℚ
  softTfidf : ℚ
  authorLastnameSim : ℚ
  distinctiveTokenCoverage : ℚ

/-- `AdvancedBookMatcher.combine_features`: the weighted sum in the source's
dictionary order, then `min(score, 1.0)`. -/
def combineFeatures (f : MatchFeatures) : ℚ :=
  min (f.charTfidfCosine * 0.35 + f.tokenSetSim * 0.25 + f.softTfidf * 0.20
       + f.authorLastnameSim * 0.15 + f.distinctiveTokenCoverage * 0.05) 1

/-- `AdvancedBookMatcher.determine_match_type` (`matching_v2.py`). -/
def determineMatchType (score : ℚ) : String × ℚ :=
  if score ≥ 0.85 then ("exact", score)
  else if score ≥ 0.70 then ("strong", score)
  else if score ≥ 0.55 then ("moderate", score)
  else if score ≥ 0.40 then ("weak", score)
  else ("poor", score)

/-- `BookMatcher._determine_match_type` (`matching.py`); textually identical
code to the advanced variant. -/
def determineMatchTypeLegacy (score : ℚ) : String × ℚ :=
  if score ≥ 0.85 then ("exact", score)
  else if score ≥ 0.70 then ("strong", score)
  else if score ≥ 0.55 then ("moderate", score)
  else if score ≥ 0.40 then ("weak", score)
  else ("poor", score)

/-- The char-TF-IDF feature guard of `calculate_match_features`
(`if self.use_character_ngrams and self.vectorizer: ... else 0.0`); `cosValue`
stands for the cosine similarity computed from the fitted vectorizer when one
is present. -/
def charTfidfCosineFeature (useCharNgrams vectorizerPresent : Bool)
    (cosValue : ℚ) : ℚ :=
  if useCharNgrams && vectorizerPresent then cosValue else 0

/-! ## Advanced matcher: `soft_tfidf_overlap` -/

/-- Inner loop of `soft_tfidf_overlap`: scan the candidate tokens, skip the
already-used ones, and keep the first maximum of `sim q c`
(`if similarity > best_similarity`). -/
def bestUnusedMatch (sim : String → String → ℚ) (used : List String)
    (q : String) : List String → ℚ → Option String → ℚ × Option String
  | [], bs, bc => (bs, bc)
  | c :: cs, bs, bc =>
    if c ∈ used then bestUnusedMatch sim used q cs bs bc
    else if bs < sim q c then bestUnusedMatch sim used q cs (sim q c) (some c)
    else bestUnusedMatch sim used q cs bs bc

/-- Outer loop of `soft_tfidf_overlap`, returning `gained_idf`, the final
`used_candidate_tokens`, and additionally the list of credited
(query token, candidate token) pairs in order (the pair list is a proof
artifact; the source only keeps the first two).  The credit condition
`best_similarity >= 0.88 and best_candidate` requires the candidate to be
both present (`≠ none`) and truthy (`≠ ""`). -/
def softTfidfLoop (idf : String → ℚ) (sim : String → String → ℚ)
    (cands : List String) :
    List String → List String → ℚ → List (String × String) →
      ℚ × List String × List (String × String)
  | [], used, gained, pairs => (gained, used, pairs)
  | q :: qs, used, gained, pairs =>
    match bestUnusedMatch sim used q cands 0 none with
    | (bs, some c) =>
      if 0.88 ≤ bs ∧ c ≠ "" then
        softTfidfLoop idf sim cands qs (c :: used) (gained + idf q)
          (pairs ++ [(q, c)])
      else softTfidfLoop idf sim cands qs used gained pairs
    | (_, none) => softTfidfLoop idf sim cands qs used gained pairs

/-- `AdvancedBookMatcher.soft_tfidf_overlap`.  `idf t` stands for the Python
lookup `self.token_idf.get(t, 1.0)` (a total map with default 1.0); `sim`
stands for `rapidfuzz.distance.JaroWinkler.normalized_similarity`. -/
def softTfidfOverlap (idf : String → ℚ) (sim : String → String → ℚ)
    (queryTokens candidateTokens : List String) : ℚ :=
  if queryTokens = [] ∨ candidateTokens = [] then 0
  else
    let total := (queryTokens.map idf).sum
    if total = 0 then 0
    else (softTfidfLoop idf sim candidateTokens queryTokens [] 0 []).1 / total

/-! ## Advanced matcher: `fit` (sklearn vocabulary model) -/

/-- A candidate catalog record as the matchers read it: `book.get('title', '')`
and `book.get('author_name', '')` (a plain-string author value is represented
as the singleton list, per the source's `isinstance(author, list)` branch). -/
structure BookRec where
  title : String
  authorName : List String

/-- Lower-cased character n-grams (n = 3..5) of a document, as extracted by
`TfidfVectorizer(analyzer="char", ngram_range=(3, 5))` (sklearn lower-cases by
default). -/
def charNgrams (doc : String) : List String :=
  let d := (pyLower doc).data
  ((List.range 3).map (fun k =>
    (List.range (d.length + 1 - (k + 3))).map
      (fun i => (⟨(d.drop i).take (k + 3)⟩ : String)))).flatten

/-- Lower-cased word tokens of a document, per sklearn's default word analyzer
(`token_pattern r"(?u)\b\w\w+\b"`): maximal runs of word characters of length
at least 2. -/
def skWordTokens (doc : String) : List String :=
  (splitRunsAux isWordChar (pyLower doc).data []).filterMap
    (fun w => if 2 ≤ w.length then some (⟨w⟩ : String) else none)

/-- Document frequency of term `t` in `corpus` under analyzer `f`. -/
def docFreq (f : String → List String) (corpus : List String) (t : String) :
    Nat :=
  (corpus.filter (fun d => t ∈ f d)).length

/-- Whether the vocabulary of a `TfidfVectorizer(..., min_df=2)` fitted on
`corpus` is non-empty: some term of some document occurs in at least two
documents.  When this is false, sklearn's `fit_transform` raises `ValueError`
("empty vocabulary" if no terms exist at all, otherwise "After pruning, no
terms remain. Try a lower min_df or a higher max_df."); `max_features` merely
truncates a non-empty vocabulary and never empties it. -/
def vocabNonempty (f : String → List String) (corpus : List String) : Bool :=
  corpus.any (fun d => (f d).any (fun t => 2 ≤ docFreq f corpus t))

/-- The per-record derived state built by `AdvancedBookMatcher.build_corpus`
(the fields of `meta` that the embedded fragment reads). -/
structure AdvMeta where
  norm : String
  tokens : List String

/-- One corpus document: `normalize_text(f"{title} {author}".strip())` with
`title = book.get('title', '').strip()` and the author list joined by spaces. -/
def buildCorpusDoc (nfkd : List Char → List Char) (b : BookRec) : String :=
  normalizeText nfkd (pyStrip (pyStrip b.title ++ " " ++ joinSp b.authorName))

/-- Engine state relevant to the embedded fragment of
`AdvancedBookMatcher`: the `is_fitted` flag and `corpus_meta`. -/
structure AdvancedMatcher where
  isFitted : Bool
  corpusMeta : List AdvMeta

/-- `AdvancedBookMatcher.fit`: build the normalized corpus, fit the character
n-gram vectorizer (when `use_character_ngrams`) and then the word-token
vectorizer, both with `min_df=2`; propagate sklearn's `ValueError` when a
vocabulary comes out empty.  (The numeric IDF table is not materialized here:
the scoring functions that consume it take it as a parameter.) -/
def advancedFit (nfkd : List Char → List Char) (useCharNgrams : Bool)
    (catalog : List BookRec) : Except String AdvancedMatcher :=
  let corpus := catalog.map (buildCorpusDoc nfkd)
  if useCharNgrams && !vocabNonempty charNgrams corpus then
    .error "empty vocabulary after min_df pruning"
  else if !vocabNonempty skWordTokens corpus then
    .error "empty vocabulary after min_df pruning"
  else
    .ok { isFitted := true
          corpusMeta :=
            corpus.map (fun nd => { norm := nd, tokens := extractTokens nd }) }

/-! ## Advanced matcher: `match_books` (ranking) -/

/-- One step of Python's stable `list.sort(key=lambda x: x[1], reverse=True)`,
as insertion into an already-sorted accumulator: a later element is placed
after every element whose score is `≥` its own (so equal scores keep their
original relative order). -/
def insertDesc (x : Nat × ℚ) : List (Nat × ℚ) → List (Nat × ℚ)
  | [] => [x]
  | y :: ys => if x.2 ≤ y.2 then y :: insertDesc x ys else x :: y :: ys

/-- Stable descending-by-score sort (Python
`all_scores.sort(key=lambda x: x[1], reverse=True)`). -/
def sortDescQ (l : List (Nat × ℚ)) : List (Nat × ℚ) :=
  l.foldl (fun acc x => insertDesc x acc) []

/-- `AdvancedBookMatcher.match_books`, projected to the (catalog index, score)
content of its result list (the source wraps each entry in a `MatchScore`
whose `match_type`/`confidence` are `determine_match_type` of the score and
whose book is `corpus_meta[idx]["original_book"]`).  `featuresOf v meta`
stands for `calculate_match_features(v, meta["norm"], meta)`, whose
vectorizer- and JaroWinkler-dependent internals are inputs here. -/
def advMatchBooks (nfkd : List Char → List Char)
    (featuresOf : String → AdvMeta → MatchFeatures) (m : AdvancedMatcher)
    (ocrText : String) (topK : Nat) : Except String (List (Nat × ℚ)) :=
  if !m.isFitted then .error "Matcher must be fitted before matching"
  else if ocrText = "" || pyStrip ocrText = "" then .ok []
  else
    let ocrNorm := normalizeText nfkd ocrText
    let variants := generateConfusionVariants ocrNorm
    let scored := m.corpusMeta.enum.filterMap (fun im =>
      let best := variants.foldl
        (fun b v =>
          let s := combineFeatures (featuresOf v im.2)
          if b < s then s else b) 0
      if 0 < best then some (im.1, best) else none)
    .ok ((sortDescQ scored).take topK)

/-! ## Legacy matcher (`matching.py`) -/

/-- The per-strategy score lists handed to
`BookMatcher._combine_scores_asymmetric` (one entry per search-text variant;
their values come from the strategy functions, several of which wrap
unembedded libraries, so they are inputs here). -/
structure LegacyStrategyScores where
  charScores : List ℚ
  fuzzyScores : List ℚ
  tokenScores : List ℚ
  wordOrderScores : List ℚ
  semanticScores : List ℚ
  tfidfScores : List ℚ
  fieldScores : List ℚ

/-- Python `max(scores) if scores else 0.0`. -/
def pyMaxD0 (l : List ℚ) : ℚ :=
  match l with
  | [] => 0
  | x :: xs => xs.foldl max x

/-- `BookMatcher._combine_scores_asymmetric`. -/
def combineScoresAsymmetric (st : LegacyStrategyScores) (searchText : String)
    (b : BookRec) : ℚ :=
  let bestChar := pyMaxD0 st.charScores
  let bestFuzzy := pyMaxD0 st.fuzzyScores
  let bestToken := pyMaxD0 st.tokenScores
  let bestWordOrder := pyMaxD0 st.wordOrderScores
  let bestSemantic := pyMaxD0 st.semanticScores
  let bestTfidf := pyMaxD0 st.tfidfScores
  let bestField := pyMaxD0 st.fieldScores
  let combined := bestToken * 0.4 + bestChar * 0.25 + bestFuzzy * 0.20
    + bestWordOrder * 0.15 + bestSemantic * 0.15 + bestTfidf * 0.10
    + bestField * 0.20
  let searchLength := (pySplit searchText).length
  let bookLength := (pySplit b.title).length
  let c1 := if bookLength * 2 < searchLength then combined * 0.8 else combined
  let c2 := if bestToken < 0.3 ∧ bestChar < 0.3 then c1 * 0.7 else c1
  min c2 0.95

/-- `common_words` of `BookMatcher._generate_text_variations`. -/
def commonWords : List String :=
  ["the", "a", "an", "and", "or", "but", "in", "on", "at", "to", "for", "of",
   "with", "by"]

/-- `re.sub(r'[^\w\s]', '', text)`: remove punctuation (empty replacement). -/
def removePunctKeep (t : String) : String :=
  ⟨t.data.filter (fun c => isWordChar c || isPyWs c)⟩

/-- `BookMatcher._generate_text_variations`. -/
def generateTextVariations (t : String) : List String :=
  let ws := pySplit t
  let filtered := ws.filter (fun w => pyLower w ∉ commonWords)
  let v1 := if filtered ≠ [] then [joinSp filtered] else []
  let v2 :=
    if 3 < ws.length then
      [joinSp (ws.take 3), joinSp (ws.drop (ws.length - 3))] ++
        (if 6 < ws.length then
          [joinSp ((ws.drop (ws.length / 2 - 1)).take 3)]
        else [])
    else []
  let noPunct := removePunctKeep t
  let v3 := if noPunct ≠ t then [noPunct] else []
  v1 ++ v2 ++ v3

/-- The `search_texts` list assembled at the top of
`BookMatcher.match_books`: the denoised text (falling back to the raw OCR
text), the raw OCR text when it differs, then the variations of the primary
text. -/
def buildSearchTexts (ocrText denoisedText : String) : List String :=
  let primary := if denoisedText ≠ "" then denoisedText else ocrText
  let base :=
    if denoisedText ≠ "" && denoisedText ≠ ocrText then [primary, ocrText]
    else [primary]
  base ++ generateTextVariations primary

/-- `BookMatcher._check_exact_title_match`: any search text whose
`lower().strip()` equals the title's `lower().strip()` (a falsy/empty title
returns `False` immediately). -/
def checkExactTitleMatch (searchTexts : List String) (b : BookRec) : Bool :=
  if b.title = "" then false
  else searchTexts.any (fun s => pyStrip (pyLower s) == pyStrip (pyLower b.title))

/-- The per-candidate body of `BookMatcher.match_books`, projected to
(score, match_type): the exact-title short-circuit gives `(1.0, 'exact')`,
otherwise the asymmetric combination of the strategy scores is classified by
`_determine_match_type` (the `MatchScore.confidence` is the same value as the
score in both branches). -/
def legacyCandidate (st : LegacyStrategyScores) (searchTexts : List String)
    (b : BookRec) : ℚ × String :=
  if checkExactTitleMatch searchTexts b then (1, "exact")
  else
    let c := combineScoresAsymmetric st (searchTexts.headD "") b
    (c, (determineMatchTypeLegacy c).1)

/-- `BookMatcher.match_books`, projected to the (catalog index, score) content
of its result list.  `stratOf i b` stands for the seven strategy score lists
computed for book `i` over the search texts. -/
def legacyMatchBooks (stratOf : Nat → BookRec → LegacyStrategyScores)
    (ocrText denoisedText : String) (books : List BookRec) (topK : Nat) :
    List (Nat × ℚ) :=
  if books.isEmpty then []
  else
    let sts := buildSearchTexts ocrText denoisedText
    let scored := books.enum.map
      (fun ib => (ib.1, (legacyCandidate (stratOf ib.1 ib.2) sts ib.2).1))
    (sortDescQ scored).take topK

/-! ## Legacy matcher: `_character_similarity` (via `rapidfuzz.fuzz.ratio`) -/

/-- Length of a longest common subsequence; `rapidfuzz`'s indel distance is
`|a| + |b| - 2·lcs(a, b)`. -/
def lcsL : List Char → List Char → Nat
  | [], _ => 0
  | _ :: _, [] => 0
  | x :: xs, y :: ys =>
    if x = y then lcsL xs ys + 1
    else max (lcsL (x :: xs) ys) (lcsL xs (y :: ys))
  termination_by a b => a.length + b.length

/-- `rapidfuzz.fuzz.ratio`: 100 times the normalized indel similarity
`(|a| + |b| - dist) / (|a| + |b|)`; two empty strings have similarity 1. -/
def fuzzRatio (a b : String) : ℚ :=
  if a.data.length + b.data.length = 0 then 100
  else
    100 * (2 * lcsL a.data b.data : ℚ)
      / ((a.data.length : ℚ) + (b.data.length : ℚ))

/-- The per-search-text body of `BookMatcher._character_similarity`: the
strategy value is `1.0 - fuzz.ratio(...)/100` — a *dissimilarity* — scaled by
0.7 when the normalized lengths differ by more than a factor of two. -/
def characterSimilarityOne (searchText bookText : String) : ℚ :=
  if searchText = "" ∨ bookText = "" then 0
  else
    let sn := normalizeLegacy searchText
    let bn := normalizeLegacy bookText
    let maxLen := max sn.data.length bn.data.length
    if maxLen = 0 then 0
    else
      let charSim := 1 - fuzzRatio sn bn / 100
      if ((min sn.data.length bn.data.length : ℚ) / (maxLen : ℚ)) < 0.5 then
        charSim * 0.7
      else charSim

/-- `BookMatcher._character_similarity` over the search-text list. -/
def characterSimilarity (searchTexts : List String) (bookText : String) :
    List ℚ :=
  searchTexts.map (fun s => characterSimilarityOne s bookText)

/-- The closed form of the per-pair character-similarity value on the
non-degenerate path: `1 - ratio/100`, scaled by 0.7 for a length mismatch.
Derived from `_character_similarity` for stating its antitonicity in the
fuzzy ratio. -/
def charDissimScaled (ratio : ℚ) (lengthMismatch : Bool) : ℚ :=
  (1 - ratio / 100) * (if lengthMismatch then 0.7 else 1)

/-- The match-type classification as the spec states it (§4.4), with
explicitly half-open tiers.  This definition follows the spec's words, to be
compared against the source-derived `determineMatchType` /
`determineMatchTypeLegacy`. -/
def specMatchType (s : ℚ) : String :=
  if 0.85 ≤ s then "exact"
  else if 0.70 ≤ s ∧ s < 0.85 then "strong"
  else if 0.55 ≤ s ∧ s < 0.70 then "moderate"
  else if 0.40 ≤ s ∧ s < 0.55 then "weak"
  else "poor"

/-- The strict ranking order the matchers' result lists follow: strictly
higher score first, ties by ascending catalog index (Python's `list.sort` is
stable and the scored lists are built in catalog order). -/
def rankRel (a b : Nat × ℚ) : Prop := b.2 < a.2 ∨ (a.2 = b.2 ∧ a.1 < b.1)

/-! ## Helper lemmas -/

lemma foldl_max_le_init (l : List ℚ) (b : ℚ) : b ≤ l.foldl max b := by
  induction l generalizing b with
  | nil => exact le_refl b
  | cons x xs ih =>
    calc b ≤ max b x := le_max_left b x
    _ ≤ xs.foldl max (max b x) := ih (max b x)

lemma pyMaxD0_nonneg (l : List ℚ) (h : ∀ x ∈ l, 0 ≤ x) : 0 ≤ pyMaxD0 l := by
  cases l with
  | nil => exact le_refl 0
  | cons x xs =>
    have hx : 0 ≤ x := h x (List.mem_cons_self x xs)
    exact le_trans hx (foldl_max_le_init xs x)

/-! ## C1: the advanced combiner is the clamped weighted sum -/

/-- C1.  For every feature vector produced by the advanced matcher (each
feature value lies in [0, 1], as the five feature computations guarantee),
`combine_features` equals the weighted sum
`0.35·charNgramCosine + 0.25·tokenSetSim + 0.20·softTfidfOverlap +
0.15·authorLastNameSim + 0.05·distinctiveTokenCoverage` clamped to [0, 1]
(the source's `min(score, 1.0)` coincides with the clamp because the weighted
sum of features in [0, 1] is never negative), and the result lies in [0, 1]. -/
theorem C1_combine_features_clamped_weighted_sum (f : MatchFeatures)
    (h1 : 0 ≤ f.charTfidfCosine) (h2 : 0 ≤ f.tokenSetSim)
    (h3 : 0 ≤ f.softTfidf) (h4 : 0 ≤ f.authorLastnameSim)
    (h5 : 0 ≤ f.distinctiveTokenCoverage) :
    combineFeatures f =
      max 0 (min 1 (0.35 * f.charTfidfCosine + 0.25 * f.tokenSetSim
        + 0.20 * f.softTfidf + 0.15 * f.authorLastnameSim
        + 0.05 * f.distinctiveTokenCoverage)) ∧
    0 ≤ combineFeatures f ∧ combineFeatures f ≤ 1 := by
  have hsum : 0 ≤ f.charTfidfCosine * 0.35 + f.tokenSetSim * 0.25
      + f.softTfidf * 0.20 + f.authorLastnameSim * 0.15
      + f.distinctiveTokenCoverage * 0.05 := by positivity
  have hw : f.charTfidfCosine * 0.35 + f.tokenSetSim * 0.25
      + f.softTfidf * 0.20 + f.authorLastnameSim * 0.15
      + f.distinctiveTokenCoverage * 0.05
      = 0.35 * f.charTfidfCosine + 0.25 * f.tokenSetSim + 0.20 * f.softTfidf
        + 0.15 * f.authorLastnameSim + 0.05 * f.distinctiveTokenCoverage := by
    ring
  have hW : 0 ≤ 0.35 * f.charTfidfCosine + 0.25 * f.tokenSetSim
      + 0.20 * f.softTfidf + 0.15 * f.authorLastnameSim
      + 0.05 * f.distinctiveTokenCoverage := hw ▸ hsum
  refine ⟨?_, ?_, min_le_right _ 1⟩
  · unfold combineFeatures
    rw [hw, max_eq_right (le_min (by norm_num) hW)]
    exact min_comm _ _
  · unfold combineFeatures
    exact le_min hsum (by norm_num)

/-- Witness for C1 at a concrete feature vector. -/
theorem C1_witness :
    combineFeatures ⟨1/2, 1/4, 0, 1, 3/10⟩ =
      max 0 (min 1 ((0.35 : ℚ) * (1/2) + 0.25 * (1/4) + 0.20 * 0 + 0.15 * 1
        + 0.05 * (3/10))) ∧
    0 ≤ combineFeatures ⟨1/2, 1/4, 0, 1, 3/10⟩ ∧
    combineFeatures ⟨1/2, 1/4, 0, 1, 3/10⟩ ≤ 1 :=
  C1_combine_features_clamped_weighted_sum ⟨1/2, 1/4, 0, 1, 3/10⟩
    (by norm_num) (by norm_num) (by norm_num) (by norm_num) (by norm_num)

/-! ## C2: score bounds and the fixed-threshold match-type classification -/

/-- C2.  (i) The advanced combiner's output lies in [0, 1] whenever the
feature values are non-negative (they always are, being cosines, ratio
scores, and JaroWinkler similarities); (ii) the legacy combiner's output lies
in [0, 1] whenever the strategy score lists are non-negative (the 0.95 cap
bounds it above); (iii) both matchers' match-type functions agree exactly
with the spec's fixed-threshold classification, boundary values falling in
the higher tier. -/
theorem C2_score_bounds_and_match_type :
    (∀ f : MatchFeatures,
      0 ≤ f.charTfidfCosine → 0 ≤ f.tokenSetSim → 0 ≤ f.softTfidf →
      0 ≤ f.authorLastnameSim → 0 ≤ f.distinctiveTokenCoverage →
      0 ≤ combineFeatures f ∧ combineFeatures f ≤ 1) ∧
    (∀ (st : LegacyStrategyScores) (searchText : String) (b : BookRec),
      (∀ x ∈ st.charScores, 0 ≤ x) → (∀ x ∈ st.fuzzyScores, 0 ≤ x) →
      (∀ x ∈ st.tokenScores, 0 ≤ x) → (∀ x ∈ st.wordOrderScores, 0 ≤ x) →
      (∀ x ∈ st.semanticScores, 0 ≤ x) → (∀ x ∈ st.tfidfScores, 0 ≤ x) →
      (∀ x ∈ st.fieldScores, 0 ≤ x) →
      0 ≤ combineScoresAsymmetric st searchText b ∧
        combineScoresAsymmetric st searchText b ≤ 1) ∧
    (∀ s : ℚ, (determineMatchType s).1 = specMatchType s ∧
      (determineMatchTypeLegacy s).1 = specMatchType s ∧
      (determineMatchType s).2 = s ∧ (determineMatchTypeLegacy s).2 = s) := by
  refine ⟨?_, ?_, ?_⟩
  · intro f h1 h2 h3 h4 h5
    have hsum : 0 ≤ f.charTfidfCosine * 0.35 + f.tokenSetSim * 0.25
        + f.softTfidf * 0.20 + f.authorLastnameSim * 0.15
        + f.distinctiveTokenCoverage * 0.05 := by positivity
    exact ⟨le_min hsum (by norm_num), min_le_right _ 1⟩
  · intro st searchText b hc hf ht hw hs htf hfl
    unfold combineScoresAsymmetric
    have h1 : 0 ≤ pyMaxD0 st.charScores := pyMaxD0_nonneg _ hc
    have h2 : 0 ≤ pyMaxD0 st.fuzzyScores := pyMaxD0_nonneg _ hf
    have h3 : 0 ≤ pyMaxD0 st.tokenScores := pyMaxD0_nonneg _ ht
    have h4 : 0 ≤ pyMaxD0 st.wordOrderScores := pyMaxD0_nonneg _ hw
    have h5 : 0 ≤ pyMaxD0 st.semanticScores := pyMaxD0_nonneg _ hs
    have h6 : 0 ≤ pyMaxD0 st.tfidfScores := pyMaxD0_nonneg _ htf
    have h7 : 0 ≤ pyMaxD0 st.fieldScores := pyMaxD0_nonneg _ hfl
    have hcomb : 0 ≤ pyMaxD0 st.tokenScores * 0.4
        + pyMaxD0 st.charScores * 0.25 + pyMaxD0 st.fuzzyScores * 0.20
        + pyMaxD0 st.wordOrderScores * 0.15
        + pyMaxD0 st.semanticScores * 0.15 + pyMaxD0 st.tfidfScores * 0.10
        + pyMaxD0 st.fieldScores * 0.20 := by positivity
    constructor
    · apply le_min _ (by norm_num)
      split
      · split
        · positivity
        · positivity
      · split
        · positivity
        · exact hcomb
    · exact le_trans (min_le_right _ _) (by norm_num)
  · intro s
    have hsame : determineMatchTypeLegacy s = determineMatchType s := rfl
    have hmain : (determineMatchType s).1 = specMatchType s := by
      unfold determineMatchType specMatchType
      rcases le_or_lt 0.85 s with h1 | h1
      · simp [ge_iff_le, h1]
      · rcases le_or_lt 0.70 s with h2 | h2
        · simp [ge_iff_le, h1, h2, not_le.mpr h1]
        · rcases le_or_lt 0.55 s with h3 | h3
          · simp [ge_iff_le, h1, h2, h3, not_le.mpr h1, not_le.mpr h2]
          · rcases le_or_lt 0.40 s with h4 | h4
            · simp [ge_iff_le, h1, h2, h3, h4, not_le.mpr h1, not_le.mpr h2,
                not_le.mpr h3]
            · simp [ge_iff_le, not_le.mpr h1, not_le.mpr h2, not_le.mpr h3,
                not_le.mpr h4]
    have hsnd : (determineMatchType s).2 = s := by
      unfold determineMatchType
      split_ifs <;> rfl
    exact ⟨hmain, hsame ▸ hmain, hsnd, hsame ▸ hsnd⟩

/-- Witness for C2: concrete feature vector, concrete strategy lists, and the
0.85 boundary score. -/
theorem C2_witness :
    (0 ≤ combineFeatures ⟨1, 1/2, 1/3, 1/4, 1/5⟩ ∧
      combineFeatures ⟨1, 1/2, 1/3, 1/4, 1/5⟩ ≤ 1) ∧
    (0 ≤ combineScoresAsymmetric ⟨[1/2], [2/3], [1], [0], [], [1/10], [3/2]⟩
        "a b" ⟨"t", []⟩ ∧
      combineScoresAsymmetric ⟨[1/2], [2/3], [1], [0], [], [1/10], [3/2]⟩
        "a b" ⟨"t", []⟩ ≤ 1) ∧
    ((determineMatchType 0.85).1 = specMatchType 0.85 ∧
      (determineMatchTypeLegacy 0.85).1 = specMatchType 0.85) :=
  ⟨C2_score_bounds_and_match_type.1 ⟨1, 1/2, 1/3, 1/4, 1/5⟩
      (by norm_num) (by norm_num) (by norm_num) (by norm_num) (by norm_num),
   C2_score_bounds_and_match_type.2.1 ⟨[1/2], [2/3], [1], [0], [], [1/10], [3/2]⟩
      "a b" ⟨"t", []⟩
      (by intro x hx; simp at hx; norm_num [hx])
      (by intro x hx; simp at hx; norm_num [hx])
      (by intro x hx; simp at hx; norm_num [hx])
      (by intro x hx; simp at hx; norm_num [hx])
      (by intro x hx; simp at hx)
      (by intro x hx; simp at hx; norm_num [hx])
      (by intro x hx; simp at hx; norm_num [hx]),
   ⟨(C2_score_bounds_and_match_type.2.2 0.85).1,
    (C2_score_bounds_and_match_type.2.2 0.85).2.1⟩⟩

/-! ## C3: the legacy exact-title short-circuit -/

/-- C3 counterexample.  The claim — normalized equality of query and title
forces score 1.0 / matchType "exact" — is false: `_check_exact_title_match`
compares `lower().strip()` of the raw strings, not `_normalize_text`.  With
query `"dune"` and title `"Dune."` the two normalize identically (`"dune"`),
yet the short-circuit misses and the candidate's score is capped at 0.95
(it is 0 for the all-empty strategy lists used here). -/
theorem C3_counterexample :
    ¬ (∀ (st : LegacyStrategyScores) (query : String) (b : BookRec),
        b.title ≠ "" →
        normalizeLegacy query = normalizeLegacy b.title →
        (legacyCandidate st (buildSearchTexts query "") b).1 = 1) := by
  intro h
  have h0 := h ⟨[], [], [], [], [], [], []⟩ "dune" ⟨"Dune.", []⟩
    (by decide) (by decide)
  have hc : checkExactTitleMatch (buildSearchTexts "dune" "")
      ⟨"Dune.", []⟩ = false := by decide
  rw [legacyCandidate, hc] at h0
  -- the non-short-circuit path is capped at 0.95 for *any* strategy scores
  have hcap : ∀ (st : LegacyStrategyScores) (s : String) (b : BookRec),
      combineScoresAsymmetric st s b ≤ 0.95 := by
    intro st s b
    unfold combineScoresAsymmetric
    exact min_le_right _ _
  have h1 := hcap ⟨[], [], [], [], [], [], []⟩
    ((buildSearchTexts "dune" "").headD "") ⟨"Dune.", []⟩
  simp at h0 h1
  rw [h0] at h1
  norm_num at h1

/-- C3, amended.  The legacy exact-title short-circuit fires exactly on
`lower().strip()` equality (not on `_normalize_text` equality): for every
candidate with a non-empty title and every query whose lowercased, stripped
text equals the lowercased, stripped title, the legacy matcher assigns that
candidate score 1.0 and matchType "exact", regardless of the strategy scores
(and hence of the other candidates). -/
theorem C3_amended_lower_strip_short_circuit
    (st : LegacyStrategyScores) (ocrText denoisedText : String) (b : BookRec)
    (htitle : b.title ≠ "")
    (heq : pyStrip (pyLower (if denoisedText ≠ "" then denoisedText
        else ocrText)) = pyStrip (pyLower b.title)) :
    legacyCandidate st (buildSearchTexts ocrText denoisedText) b =
      (1, "exact") := by
  have hmem : (if denoisedText ≠ "" then denoisedText else ocrText) ∈
      buildSearchTexts ocrText denoisedText := by
    unfold buildSearchTexts
    by_cases hd : denoisedText = ""
    · simp [hd]
    · by_cases ho : denoisedText = ocrText
      · simp [hd, ho]
      · simp [hd, ho]
  have hcheck : checkExactTitleMatch (buildSearchTexts ocrText denoisedText)
      b = true := by
    unfold checkExactTitleMatch
    rw [if_neg htitle]
    exact List.any_eq_true.mpr
      ⟨_, hmem, beq_iff_eq.mpr heq⟩
  unfold legacyCandidate
  rw [hcheck]
  simp

/-- Witness for C3's amended theorem: query `"Dune "`, title `"dune"`. -/
theorem C3_witness :
    legacyCandidate ⟨[], [], [], [], [], [], []⟩
      (buildSearchTexts "Dune " "") ⟨"dune", []⟩ = (1, "exact") :=
  C3_amended_lower_strip_short_circuit ⟨[], [], [], [], [], [], []⟩
    "Dune " "" ⟨"dune", []⟩ (by decide) (by decide)

/-! ## C4: `fit` on tiny catalogs and corpus-statistics degradation -/

lemma docFreq_singleton_le (f : String → List String) (d t : String) :
    docFreq f [d] t ≤ 1 :=
  le_trans (List.length_filter_le _ _) (by simp)

lemma vocabNonempty_singleton (f : String → List String) (d : String) :
    vocabNonempty f [d] = false := by
  unfold vocabNonempty
  rw [List.any_eq_false]
  intro d' hd'
  rw [Bool.not_eq_true, List.any_eq_false]
  intro t _
  have := docFreq_singleton_le f d t
  rcases List.mem_singleton.mp hd' with rfl
  simp only [decide_eq_true_eq]
  omega

/-- C4 counterexample.  `fit` does *not* tolerate a 1-record catalog: both
`TfidfVectorizer`s are constructed with `min_df=2`, and in a single-document
corpus every term has document frequency at most 1, so sklearn prunes the
entire vocabulary and raises `ValueError`. -/
theorem C4_counterexample :
    ¬ (∀ (catalog : List BookRec), 1 ≤ catalog.length →
        (advancedFit id true catalog).isOk = true) := by
  intro h
  have h1 := h [⟨"Ab", ["Cd"]⟩] (by decide)
  have h2 : (advancedFit id true [(⟨"Ab", ["Cd"]⟩ : BookRec)]).isOk
      = false := by decide
  rw [h1] at h2
  exact absurd h2 (by decide)

/-- C4, amended.  (i) `fit` raises on *every* catalog of exactly one record
(with either setting of `use_character_ngrams`): `min_df=2` leaves an empty
vocabulary, which sklearn turns into a `ValueError`.  (ii) The strategies
that rely on corpus statistics degrade to a 0 contribution rather than
raising when those statistics are undefined: `soft_tfidf_overlap` returns 0
whenever the total query IDF mass is 0, and the char-n-gram cosine feature is
0 whenever the fitted vectorizer is absent or character n-grams are
disabled. -/
theorem C4_amended_fit_raises_on_singleton :
    (∀ (nfkd : List Char → List Char) (useCharNgrams : Bool) (b : BookRec),
      (advancedFit nfkd useCharNgrams [b]).isOk = false) ∧
    (∀ (idf : String → ℚ) (sim : String → String → ℚ)
      (qt ct : List String), (∀ t ∈ qt, idf t = 0) →
      softTfidfOverlap idf sim qt ct = 0) ∧
    (∀ (useCharNgrams : Bool) (cosValue : ℚ),
      charTfidfCosineFeature useCharNgrams false cosValue = 0) ∧
    (∀ (vectorizerPresent : Bool) (cosValue : ℚ),
      charTfidfCosineFeature false vectorizerPresent cosValue = 0) := by
  refine ⟨?_, ?_, ?_, ?_⟩
  · intro nfkd useCharNgrams b
    unfold advancedFit
    have h1 := vocabNonempty_singleton charNgrams (buildCorpusDoc nfkd b)
    have h2 := vocabNonempty_singleton skWordTokens (buildCorpusDoc nfkd b)
    simp only [List.map_cons, List.map_nil, h1, h2, Bool.not_false,
      Bool.and_true]
    cases useCharNgrams <;> rfl
  · intro idf sim qt ct h
    unfold softTfidfOverlap
    by_cases hq : qt = [] ∨ ct = []
    · rw [if_pos hq]
    · rw [if_neg hq]
      have hz : (qt.map idf).sum = 0 := by
        apply List.sum_eq_zero
        intro x hx
        rcases List.mem_map.mp hx with ⟨t, ht, rfl⟩
        exact h t ht
      simp [hz]
  · intro useCharNgrams cosValue
    simp [charTfidfCosineFeature]
  · intro vectorizerPresent cosValue
    simp [charTfidfCosineFeature]

/-- Witness for C4's amended theorem at concrete inputs. -/
theorem C4_witness :
    (advancedFit id true [⟨"The Great Gatsby", ["Fitzgerald"]⟩]).isOk
      = false ∧
    softTfidfOverlap (fun _ => 0) (fun _ _ => 1) ["alpha"] ["beta"] = 0 ∧
    charTfidfCosineFeature true false (9/10) = 0 :=
  ⟨C4_amended_fit_raises_on_singleton.1 id true
      ⟨"The Great Gatsby", ["Fitzgerald"]⟩,
   C4_amended_fit_raises_on_singleton.2.1 (fun _ => 0) (fun _ _ => 1)
      ["alpha"] ["beta"] (fun _ _ => rfl),
   C4_amended_fit_raises_on_singleton.2.2.1 true (9/10)⟩

/-! ## Sorting lemmas for the ranked result lists -/

lemma mem_insertDesc {x y : Nat × ℚ} {l : List (Nat × ℚ)} :
    y ∈ insertDesc x l ↔ y = x ∨ y ∈ l := by
  induction l with
  | nil => simp [insertDesc]
  | cons z zs ih =>
    unfold insertDesc
    split
    · rw [List.mem_cons, ih, List.mem_cons]
      tauto
    · simp only [List.mem_cons]

lemma insertDesc_pairwise {x : Nat × ℚ} {l : List (Nat × ℚ)}
    (hl : l.Pairwise rankRel) (hidx : ∀ y ∈ l, y.1 < x.1) :
    (insertDesc x l).Pairwise rankRel := by
  induction l with
  | nil => simp [insertDesc, List.pairwise_singleton]
  | cons z zs ih =>
    rcases List.pairwise_cons.mp hl with ⟨hz, hzs⟩
    unfold insertDesc
    split
    · rename_i hle
      rw [List.pairwise_cons]
      constructor
      · intro y hy
        rcases mem_insertDesc.mp hy with rfl | hy'
        · rcases lt_or_eq_of_le hle with hlt | heq
          · exact Or.inl hlt
          · exact Or.inr ⟨heq.symm, hidx z (List.mem_cons_self z zs)⟩
        · exact hz y hy'
      · exact ih hzs (fun y hy => hidx y (List.mem_cons_of_mem z hy))
    · rename_i hgt
      push_neg at hgt
      rw [List.pairwise_cons]
      constructor
      · intro y hy
        rcases List.mem_cons.mp hy with rfl | hy'
        · exact Or.inl hgt
        · rcases hz y hy' with h1 | h1
          · exact Or.inl (lt_trans h1 hgt)
          · exact Or.inl (h1.1 ▸ hgt)
      · exact hl

lemma foldl_insertDesc_pairwise :
    ∀ (l acc : List (Nat × ℚ)), acc.Pairwise rankRel →
      (∀ y ∈ acc, ∀ z ∈ l, y.1 < z.1) →
      l.Pairwise (fun a b => a.1 < b.1) →
      (l.foldl (fun a x => insertDesc x a) acc).Pairwise rankRel := by
  intro l
  induction l with
  | nil => intro acc hacc _ _; exact hacc
  | cons x xs ih =>
    intro acc hacc hsep hl
    rcases List.pairwise_cons.mp hl with ⟨hx, hxs⟩
    rw [List.foldl_cons]
    apply ih
    · exact insertDesc_pairwise hacc
        (fun y hy => hsep y hy x (List.mem_cons_self x xs))
    · intro y hy z hz
      rcases mem_insertDesc.mp hy with rfl | hy'
      · exact hx z hz
      · exact hsep y hy' z (List.mem_cons_of_mem x hz)
    · exact hxs

lemma sortDescQ_pairwise {l : List (Nat × ℚ)}
    (h : l.Pairwise (fun a b => a.1 < b.1)) :
    (sortDescQ l).Pairwise rankRel :=
  foldl_insertDesc_pairwise l [] (List.Pairwise.nil) (by simp) h

lemma mem_foldl_insertDesc :
    ∀ (l acc : List (Nat × ℚ)) (y : Nat × ℚ),
      y ∈ l.foldl (fun a x => insertDesc x a) acc ↔ y ∈ acc ∨ y ∈ l := by
  intro l
  induction l with
  | nil => simp
  | cons x xs ih =>
    intro acc y
    rw [List.foldl_cons, ih, mem_insertDesc, List.mem_cons]
    tauto

lemma mem_sortDescQ {l : List (Nat × ℚ)} {y : Nat × ℚ} :
    y ∈ sortDescQ l ↔ y ∈ l := by
  unfold sortDescQ
  rw [mem_foldl_insertDesc]
  simp

lemma length_insertDesc (x : Nat × ℚ) (l : List (Nat × ℚ)) :
    (insertDesc x l).length = l.length + 1 := by
  induction l with
  | nil => rfl
  | cons z zs ih =>
    unfold insertDesc
    split
    · simp [ih]
    · simp

lemma length_sortDescQ (l : List (Nat × ℚ)) :
    (sortDescQ l).length = l.length := by
  suffices h : ∀ (l acc : List (Nat × ℚ)),
      (l.foldl (fun a x => insertDesc x a) acc).length
        = acc.length + l.length by
    have := h l []
    simpa [sortDescQ] using this
  intro l
  induction l with
  | nil => simp
  | cons x xs ih =>
    intro acc
    rw [List.foldl_cons, ih, length_insertDesc]
    simp only [List.length_cons]
    omega

lemma enum_pairwise_fst {α : Type} (l : List α) :
    l.enum.Pairwise (fun a b => a.1 < b.1) := by
  have h : (l.enum.map Prod.fst).Pairwise (· < ·) := by
    rw [List.enum_map_fst]
    exact List.pairwise_lt_range l.length
  exact List.pairwise_map.mp h

/-! ## C6: ranked results are stably sorted and truncated to topK -/

/-- C6.  For both matchers: the result list of `match_books` is sorted by
score non-increasing with ties in input catalog order (formally: pairwise
`rankRel`, which forces strictly descending scores or equal scores with
ascending catalog indices), and its length is at most
`min topK (number of catalog records)`. -/
theorem C6_ranking_sorted_and_bounded :
    (∀ (nfkd : List Char → List Char)
      (featuresOf : String → AdvMeta → MatchFeatures) (m : AdvancedMatcher)
      (ocrText : String) (topK : Nat) (r : List (Nat × ℚ)),
      advMatchBooks nfkd featuresOf m ocrText topK = .ok r →
      r.Pairwise rankRel ∧ r.length ≤ min topK m.corpusMeta.length) ∧
    (∀ (stratOf : Nat → BookRec → LegacyStrategyScores)
      (ocrText denoisedText : String) (books : List BookRec) (topK : Nat),
      (legacyMatchBooks stratOf ocrText denoisedText books topK).Pairwise
        rankRel ∧
      (legacyMatchBooks stratOf ocrText denoisedText books topK).length ≤
        min topK books.length) := by
  constructor
  · intro nfkd featuresOf m ocrText topK r hok
    unfold advMatchBooks at hok
    split at hok
    · cases hok
    · split at hok
      · injection hok with h
        subst h
        exact ⟨List.Pairwise.nil, by simp⟩
      · injection hok with h
        subst h
        dsimp only
        constructor
        · apply List.Pairwise.sublist (List.take_sublist _ _)
          apply sortDescQ_pairwise
          rw [List.pairwise_filterMap]
          apply List.Pairwise.imp _ (enum_pairwise_fst m.corpusMeta)
          intro a b hab p hp q hq
          have hpa : p.1 = a.1 := by
            split at hp
            · rw [Option.mem_some_iff] at hp
              rw [← hp]
            · simp at hp
          have hqb : q.1 = b.1 := by
            split at hq
            · rw [Option.mem_some_iff] at hq
              rw [← hq]
            · simp at hq
          rw [hpa, hqb]
          exact hab
        · rw [List.length_take]
          apply min_le_min (le_refl topK)
          rw [length_sortDescQ]
          exact le_trans (List.length_filterMap_le _ _)
            (le_of_eq List.enum_length)
  · intro stratOf ocrText denoisedText books topK
    unfold legacyMatchBooks
    split
    · exact ⟨List.Pairwise.nil, by simp⟩
    · constructor
      · apply List.Pairwise.sublist (List.take_sublist _ _)
        apply sortDescQ_pairwise
        rw [List.pairwise_map]
        apply List.Pairwise.imp _ (enum_pairwise_fst books)
        intro a b hab
        exact hab
      · rw [List.length_take]
        apply min_le_min (le_refl topK)
        rw [length_sortDescQ, List.length_map, List.enum_length]

/-- Witness for C6 at a concrete fitted engine: the result
`[(0, 1), (1, 1)]` is pairwise-ranked and within the length bound. -/
theorem C6_witness :
    ([((0 : Nat), (1 : ℚ)), (1, 1)]).Pairwise rankRel ∧
    ([((0 : Nat), (1 : ℚ)), (1, 1)]).length ≤
      min 3 ([⟨"G", ["A"]⟩, ⟨"H", ["B"]⟩] :
        List AdvMeta).length := by
  have h := C6_ranking_sorted_and_bounded.1 id (fun _ _ => ⟨1, 1, 1, 1, 1⟩)
    ⟨true, [⟨"G", ["A"]⟩, ⟨"H", ["B"]⟩]⟩ "Q" 3 [(0, 1), (1, 1)] ?_
  · exact h
  · have h0 : ¬ ("Q" : String) = "" := by decide
    have h1 : pyStrip "Q" = "Q" := by decide
    have h2 : normalizeText id "Q" = "Q" := by decide
    have h3 : generateConfusionVariants "Q" = ["Q"] := by decide
    simp only [advMatchBooks, h1, h2, h3]
    norm_num [h0, combineFeatures, List.enum, List.enumFrom, List.filterMap,
      List.foldl, sortDescQ, insertDesc, List.take]

/-! ## C10: only strictly positive scores are returned -/

/-- C10.  Every entry the advanced matcher returns has score strictly greater
than 0 (candidates whose best score over all query variants is 0 are filtered
out by `if best_score > 0`), and consequently the result list can be shorter
than `min topK (catalog size)` — even empty — for a non-empty catalog and a
non-blank query, as the concrete instance in the second conjunct shows. -/
theorem C10_only_positive_scores :
    (∀ (nfkd : List Char → List Char)
      (featuresOf : String → AdvMeta → MatchFeatures) (m : AdvancedMatcher)
      (ocrText : String) (topK : Nat) (r : List (Nat × ℚ)),
      advMatchBooks nfkd featuresOf m ocrText topK = .ok r →
      ∀ p ∈ r, 0 < p.2) ∧
    advMatchBooks id (fun _ _ => ⟨0, 0, 0, 0, 0⟩)
      ⟨true, [⟨"G", ["A"]⟩, ⟨"H", ["B"]⟩]⟩ "GATSBY" 5 = .ok [] := by
  constructor
  · intro nfkd featuresOf m ocrText topK r hok p hp
    unfold advMatchBooks at hok
    split at hok
    · cases hok
    · split at hok
      · injection hok with h
        subst h
        cases hp
      · injection hok with h
        subst h
        dsimp only at hp
        have hp1 : p ∈ sortDescQ (List.filterMap _ m.corpusMeta.enum) :=
          (List.take_sublist _ _).mem hp
        have hp2 := mem_sortDescQ.mp hp1
        rcases List.mem_filterMap.mp hp2 with ⟨im, _, him⟩
        split at him
        · injection him with h2
          subst h2
          assumption
        · cases him
  · have h0 : ¬ ("GATSBY" : String) = "" := by decide
    have h1 : pyStrip "GATSBY" = "GATSBY" := by decide
    have h2 : normalizeText id "GATSBY" = "GATSBY" := by decide
    have h3 : generateConfusionVariants "GATSBY" =
        ["GATSBY", "GAT5BY", "GATS8Y", "6ATSBY"] := by decide
    simp only [advMatchBooks, h1, h2, h3]
    norm_num [h0, combineFeatures, List.enum, List.enumFrom, List.filterMap,
      List.foldl, sortDescQ, insertDesc, List.take]

/-- Witness for C10's universally quantified part at a concrete instance. -/
theorem C10_witness : (0 : ℚ) < 7/20 := by
  have h := C10_only_positive_scores.1 id (fun _ _ => ⟨1, 0, 0, 0, 0⟩)
    ⟨true, [⟨"G", ["A"]⟩]⟩ "Q" 3 [(0, 7/20)] ?_ (0, 7/20) (by simp)
  · exact h
  · have h0 : ¬ ("Q" : String) = "" := by decide
    have h1 : pyStrip "Q" = "Q" := by decide
    have h2 : normalizeText id "Q" = "Q" := by decide
    have h3 : generateConfusionVariants "Q" = ["Q"] := by decide
    simp only [advMatchBooks, h1, h2, h3]
    norm_num [h0, combineFeatures, List.enum, List.enumFrom, List.filterMap,
      List.foldl, sortDescQ, insertDesc, List.take]

/-! ## C5: empty-query safety and the not-fitted error -/

/-- C5 counterexample.  The claim speaks of "either matcher", but only the
advanced matcher has the blank-query guard and the fitted state: the legacy
`BookMatcher.match_books` scores a whitespace-only query like any other
query.  Concretely, a whitespace-only query against a non-empty catalog
returns one scored entry per book (up to `topK`), not the empty list. -/
theorem C5_counterexample :
    ¬ (∀ (stratOf : Nat → BookRec → LegacyStrategyScores)
        (books : List BookRec) (topK : Nat),
        legacyMatchBooks stratOf " " "" books topK = []) := by
  intro h
  have h0 := h (fun _ _ => ⟨[], [], [], [], [], [], []⟩) [⟨"T", []⟩] 5
  have hlen : (legacyMatchBooks (fun _ _ => ⟨[], [], [], [], [], [], []⟩)
      " " "" [⟨"T", []⟩] 5).length = min 5 1 := by
    unfold legacyMatchBooks
    split
    · rename_i hemp
      exact absurd hemp (by decide)
    · rw [List.length_take, length_sortDescQ, List.length_map,
        List.enum_length]
      rfl
  rw [h0] at hlen
  norm_num at hlen

/-- C5, amended.  The advanced matcher behaves as claimed: `match_books` on
an unfitted engine raises the not-fitted error
(`ValueError("Matcher must be fitted before matching")`, the spec's
`NotFittedError`) for every query, and on a fitted engine an empty or
whitespace-only query returns the empty list.  The legacy matcher, by
contrast, has no fitted state and no blank-query guard: for *every* query —
including a whitespace-only one — it returns exactly
`min(topK, len(books))` scored entries, so its result is empty only when
the catalog is. -/
theorem C5_amended_blank_and_unfitted :
    (∀ (nfkd : List Char → List Char)
      (featuresOf : String → AdvMeta → MatchFeatures) (m : AdvancedMatcher)
      (ocrText : String) (topK : Nat),
      m.isFitted = false →
      advMatchBooks nfkd featuresOf m ocrText topK =
        .error "Matcher must be fitted before matching") ∧
    (∀ (nfkd : List Char → List Char)
      (featuresOf : String → AdvMeta → MatchFeatures) (m : AdvancedMatcher)
      (ocrText : String) (topK : Nat),
      m.isFitted = true → pyStrip ocrText = "" →
      advMatchBooks nfkd featuresOf m ocrText topK = .ok []) ∧
    (∀ (stratOf : Nat → BookRec → LegacyStrategyScores)
      (ocrText denoisedText : String) (books : List BookRec) (topK : Nat),
      (legacyMatchBooks stratOf ocrText denoisedText books topK).length =
        min topK books.length) := by
  refine ⟨?_, ?_, ?_⟩
  · intro nfkd featuresOf m ocrText topK h
    unfold advMatchBooks
    rw [h]
    rfl
  · intro nfkd featuresOf m ocrText topK h hblank
    unfold advMatchBooks
    rw [h, hblank]
    simp
  · intro stratOf ocrText denoisedText books topK
    unfold legacyMatchBooks
    split
    · rename_i hemp
      rw [List.isEmpty_iff.mp hemp]
      simp
    · rw [List.length_take, length_sortDescQ, List.length_map,
        List.enum_length]

/-- Witness for C5's amended theorem: a concrete unfitted advanced engine
errors; a concrete fitted advanced engine on a whitespace-only query returns
`[]`; the legacy matcher on a whitespace-only query against a 1-book catalog
returns exactly one entry. -/
theorem C5_witness :
    advMatchBooks id (fun _ _ => ⟨0, 0, 0, 0, 0⟩) ⟨false, []⟩ "query" 5 =
      .error "Matcher must be fitted before matching" ∧
    advMatchBooks id (fun _ _ => ⟨0, 0, 0, 0, 0⟩)
      ⟨true, [⟨"G", ["A"]⟩]⟩ "  " 5 = .ok [] ∧
    (legacyMatchBooks (fun _ _ => ⟨[], [], [], [], [], [], []⟩) " " ""
      [⟨"T", []⟩] 5).length = min 5 1 :=
  ⟨C5_amended_blank_and_unfitted.1 id _ ⟨false, []⟩ "query" 5 rfl,
   C5_amended_blank_and_unfitted.2.1 id _ ⟨true, [⟨"G", ["A"]⟩]⟩ "  " 5
     rfl (by decide),
   C5_amended_blank_and_unfitted.2.2 (fun _ _ => ⟨[], [], [], [], [], [], []⟩)
     " " "" [⟨"T", []⟩] 5⟩

/-! ## C7: the soft-TFIDF greedy credit loop -/

lemma bestUnusedMatch_fst_le (sim : String → String → ℚ) (used : List String)
    (q : String) :
    ∀ (cs : List String) (bs : ℚ) (bc : Option String),
      bs ≤ (bestUnusedMatch sim used q cs bs bc).1 := by
  intro cs
  induction cs with
  | nil => intro bs bc; exact le_refl bs
  | cons c cs ih =>
    intro bs bc
    unfold bestUnusedMatch
    split
    · exact ih bs bc
    · split
      · rename_i hlt
        exact le_trans (le_of_lt hlt) (ih _ _)
      · exact ih bs bc

lemma bestUnusedMatch_ge_mem (sim : String → String → ℚ) (used : List String)
    (q : String) :
    ∀ (cs : List String) (bs : ℚ) (bc : Option String),
      ∀ c ∈ cs, c ∉ used → sim q c ≤ (bestUnusedMatch sim used q cs bs bc).1 := by
  intro cs
  induction cs with
  | nil => intro bs bc c hc; cases hc
  | cons d ds ih =>
    intro bs bc c hc hcused
    rcases List.mem_cons.mp hc with rfl | hc'
    · unfold bestUnusedMatch
      split
      · exact absurd ‹c ∈ used› hcused
      · split
        · exact bestUnusedMatch_fst_le sim used q ds _ _
        · rename_i hnlt
          push_neg at hnlt
          exact le_trans hnlt (bestUnusedMatch_fst_le sim used q ds _ _)
    · unfold bestUnusedMatch
      split
      · exact ih bs bc c hc' hcused
      · split
        · exact ih _ _ c hc' hcused
        · exact ih bs bc c hc' hcused

lemma bestUnusedMatch_some (sim : String → String → ℚ) (used : List String)
    (q : String) :
    ∀ (cs : List String) (bs : ℚ) (bc : Option String) (rs : ℚ) (c : String),
      bestUnusedMatch sim used q cs bs bc = (rs, some c) →
      (rs = sim q c ∧ c ∉ used ∧ c ∈ cs) ∨ (bs, bc) = (rs, some c) := by
  intro cs
  induction cs with
  | nil =>
    intro bs bc rs c heq
    right
    exact heq
  | cons d ds ih =>
    intro bs bc rs c heq
    unfold bestUnusedMatch at heq
    split at heq
    · rcases ih bs bc rs c heq with ⟨h1, h2, h3⟩ | h
      · exact Or.inl ⟨h1, h2, List.mem_cons_of_mem d h3⟩
      · exact Or.inr h
    · rename_i hdu
      split at heq
      · rcases ih _ _ rs c heq with ⟨h1, h2, h3⟩ | h
        · exact Or.inl ⟨h1, h2, List.mem_cons_of_mem d h3⟩
        · rcases Prod.mk.injEq _ _ _ _ ▸ h with ⟨h1, h2⟩
          rcases Option.some.injEq _ _ ▸ h2 with rfl
          exact Or.inl ⟨h1.symm, hdu, List.mem_cons_self d ds⟩
      · rcases ih bs bc rs c heq with ⟨h1, h2, h3⟩ | h
        · exact Or.inl ⟨h1, h2, List.mem_cons_of_mem d h3⟩
        · exact Or.inr h

lemma softTfidfLoop_spec (idf : String → ℚ) (sim : String → String → ℚ)
    (cands : List String) (hidf : ∀ t, 0 ≤ idf t) :
    ∀ (qt used : List String) (gained : ℚ) (pairs : List (String × String))
      (g : ℚ) (u : List String) (ps : List (String × String)),
      softTfidfLoop idf sim cands qt used gained pairs = (g, u, ps) →
      (pairs.map Prod.snd).Nodup →
      (∀ p ∈ pairs, p.2 ∈ used) →
      (∀ p ∈ pairs, (0.88 : ℚ) ≤ sim p.1 p.2) →
      (∀ p ∈ pairs, p.2 ∈ cands) →
      (∀ p ∈ pairs, ∀ c ∈ cands, c ∉ used → sim p.1 c ≤ sim p.1 p.2) →
      gained = (pairs.map (fun p => idf p.1)).sum →
      ((ps.map Prod.snd).Nodup ∧
       (∀ p ∈ ps, p.2 ∈ u) ∧
       (∀ p ∈ ps, (0.88 : ℚ) ≤ sim p.1 p.2) ∧
       (∀ p ∈ ps, p.2 ∈ cands) ∧
       (∀ p ∈ ps, ∀ c ∈ cands, c ∉ u → sim p.1 c ≤ sim p.1 p.2) ∧
       g = (ps.map (fun p => idf p.1)).sum ∧
       g ≤ gained + (qt.map idf).sum ∧
       (∀ x ∈ used, x ∈ u)) := by
  intro qt
  induction qt with
  | nil =>
    intro used gained pairs g u ps heq h1 h2 h3 h4 h5 h6
    unfold softTfidfLoop at heq
    cases heq
    exact ⟨h1, h2, h3, h4, h5, h6, by simp, fun x hx => hx⟩
  | cons qh qrest ih =>
    intro used gained pairs g u ps heq h1 h2 h3 h4 h5 h6
    unfold softTfidfLoop at heq
    rcases hbm : bestUnusedMatch sim used qh cands 0 none with ⟨bs, bc⟩
    rw [hbm] at heq
    have hqsum : (List.map idf (qh :: qrest)).sum
        = idf qh + (List.map idf qrest).sum := by simp
    cases bc with
    | none =>
      dsimp only at heq
      obtain ⟨H1, H2, H3, H4, H5, H6, H7, H8⟩ :=
        ih used gained pairs g u ps heq h1 h2 h3 h4 h5 h6
      refine ⟨H1, H2, H3, H4, H5, H6, ?_, H8⟩
      have := hidf qh
      rw [hqsum]
      linarith
    | some c =>
      dsimp only at heq
      have hsome := bestUnusedMatch_some sim used qh cands 0 none bs c hbm
      have hfacts : bs = sim qh c ∧ c ∉ used ∧ c ∈ cands := by
        rcases hsome with h | h
        · exact h
        · exact absurd (congrArg Prod.snd h) (by simp)
      rcases hfacts with ⟨hbs, hcu, hcc⟩
      by_cases hcred : (0.88 : ℚ) ≤ bs ∧ c ≠ ""
      · rw [if_pos hcred] at heq
        have hcnotp : c ∉ pairs.map Prod.snd := by
          intro hmem
          rcases List.mem_map.mp hmem with ⟨p, hp, hpc⟩
          exact hcu (hpc ▸ h2 p hp)
        obtain ⟨H1, H2, H3, H4, H5, H6, H7, H8⟩ :=
          ih (c :: used) (gained + idf qh) (pairs ++ [(qh, c)]) g u ps heq
            (by
              simp only [List.map_append, List.map_cons, List.map_nil]
              rw [List.nodup_append]
              refine ⟨h1, List.nodup_singleton c, ?_⟩
              intro x hx hxc
              rcases List.mem_singleton.mp hxc with rfl
              exact hcnotp hx)
            (by
              intro p hp
              rcases List.mem_append.mp hp with hp' | hp'
              · exact List.mem_cons_of_mem c (h2 p hp')
              · rcases List.mem_singleton.mp hp' with rfl
                exact List.mem_cons_self c used)
            (by
              intro p hp
              rcases List.mem_append.mp hp with hp' | hp'
              · exact h3 p hp'
              · rcases List.mem_singleton.mp hp' with rfl
                exact hbs ▸ hcred.1)
            (by
              intro p hp
              rcases List.mem_append.mp hp with hp' | hp'
              · exact h4 p hp'
              · rcases List.mem_singleton.mp hp' with rfl
                exact hcc)
            (by
              intro p hp c' hc' hc'u
              have hc'used : c' ∉ used :=
                fun h => hc'u (List.mem_cons_of_mem c h)
              rcases List.mem_append.mp hp with hp' | hp'
              · exact h5 p hp' c' hc' hc'used
              · rcases List.mem_singleton.mp hp' with rfl
                have := bestUnusedMatch_ge_mem sim used qh cands 0 none
                  c' hc' hc'used
                rw [hbm] at this
                exact le_trans this (le_of_eq hbs)
            )
            (by
              rw [List.map_append, List.sum_append]
              simp [h6])
        refine ⟨H1, H2, H3, H4, H5, H6, ?_,
          fun x hx => H8 x (List.mem_cons_of_mem c hx)⟩
        rw [hqsum]
        linarith
      · rw [if_neg hcred] at heq
        obtain ⟨H1, H2, H3, H4, H5, H6, H7, H8⟩ :=
          ih used gained pairs g u ps heq h1 h2 h3 h4 h5 h6
        refine ⟨H1, H2, H3, H4, H5, H6, ?_, H8⟩
        have := hidf qh
        rw [hqsum]
        linarith

/-- C7.  `soft_tfidf_overlap` on non-empty token lists equals
credited-IDF / total-query-IDF, where the credited pairs `ps` (produced by
the greedy loop) each pair a query token with a candidate token of similarity
at least 0.88 that is maximal among the candidate tokens never used in this
scoring call, no candidate token is credited twice, and the resulting score
lies in [0, 1].  (`idf t` is the `token_idf.get(t, 1.0)` lookup, which in the
fitted engine is always non-negative: sklearn IDF values are ≥ 1, the
stop-word downweight multiplies by 0.1, and the default is 1.0.) -/
theorem C7_soft_tfidf_overlap_greedy (idf : String → ℚ)
    (sim : String → String → ℚ) (qt ct : List String) (g : ℚ)
    (u : List String) (ps : List (String × String))
    (hqt : qt ≠ []) (hct : ct ≠ []) (hidf : ∀ t, 0 ≤ idf t)
    (heq : softTfidfLoop idf sim ct qt [] 0 [] = (g, u, ps)) :
    softTfidfOverlap idf sim qt ct = g / (qt.map idf).sum ∧
    g = (ps.map (fun p => idf p.1)).sum ∧
    (∀ p ∈ ps, (0.88 : ℚ) ≤ sim p.1 p.2) ∧
    (ps.map Prod.snd).Nodup ∧
    (∀ p ∈ ps, p.2 ∈ ct) ∧
    (∀ p ∈ ps, ∀ c ∈ ct, c ∉ u → sim p.1 c ≤ sim p.1 p.2) ∧
    0 ≤ softTfidfOverlap idf sim qt ct ∧
    softTfidfOverlap idf sim qt ct ≤ 1 := by
  obtain ⟨H1, H2, H3, H4, H5, H6, H7, _⟩ :=
    softTfidfLoop_spec idf sim ct hidf qt [] 0 [] g u ps heq
      (by simp) (by simp) (by simp) (by simp) (by simp) (by simp)
  have htotal0 : (0 : ℚ) ≤ (qt.map idf).sum := by
    apply List.sum_nonneg
    intro x hx
    rcases List.mem_map.mp hx with ⟨t, _, rfl⟩
    exact hidf t
  have hg0 : 0 ≤ g := by
    rw [H6]
    apply List.sum_nonneg
    intro x hx
    rcases List.mem_map.mp hx with ⟨p, _, rfl⟩
    exact hidf p.1
  have hgle : g ≤ (qt.map idf).sum := by linarith
  have hval : softTfidfOverlap idf sim qt ct = g / (qt.map idf).sum := by
    unfold softTfidfOverlap
    rw [if_neg (by
      intro h
      rcases h with h | h
      · exact hqt h
      · exact hct h)]
    by_cases hz : (qt.map idf).sum = 0
    · rw [if_pos hz, hz, div_zero]
    · rw [if_neg hz, heq]
  refine ⟨hval, H6, H3, H1, H4, H5, ?_, ?_⟩
  · rw [hval]
    exact div_nonneg hg0 htotal0
  · rw [hval]
    by_cases hz : (qt.map idf).sum = 0
    · rw [hz, div_zero]
      norm_num
    · exact (div_le_one (lt_of_le_of_ne htotal0 (Ne.symm hz))).mpr hgle

/-- Witness for C7: uniform IDF 1, exact-equality similarity, query tokens
`["aa", "bb"]` against candidates `["bb", "cc"]`; the greedy loop credits the
single pair `("bb", "bb")` and the score is 1/2. -/
theorem C7_witness :
    softTfidfOverlap (fun _ => (1 : ℚ))
        (fun a b => if a = b then (1 : ℚ) else 0) ["aa", "bb"] ["bb", "cc"] =
      1 / ((["aa", "bb"].map (fun _ => (1 : ℚ))).sum) ∧
    (1 : ℚ) = ([("bb", "bb")].map
        (fun p => (fun _ => (1 : ℚ)) p.1)).sum ∧
    (∀ p ∈ [("bb", "bb")],
      (0.88 : ℚ) ≤ (if p.1 = p.2 then (1 : ℚ) else 0)) ∧
    (([("bb", "bb")]).map Prod.snd).Nodup ∧
    (∀ p ∈ [("bb", "bb")], p.2 ∈ ["bb", "cc"]) ∧
    (∀ p ∈ [("bb", "bb")], ∀ c ∈ ["bb", "cc"], c ∉ ["bb"] →
      (if p.1 = c then (1 : ℚ) else 0) ≤ (if p.1 = p.2 then (1 : ℚ) else 0)) ∧
    0 ≤ softTfidfOverlap (fun _ => (1 : ℚ))
        (fun a b => if a = b then (1 : ℚ) else 0) ["aa", "bb"] ["bb", "cc"] ∧
    softTfidfOverlap (fun _ => (1 : ℚ))
        (fun a b => if a = b then (1 : ℚ) else 0) ["aa", "bb"] ["bb", "cc"]
      ≤ 1 :=
  C7_soft_tfidf_overlap_greedy (fun _ => (1 : ℚ))
    (fun a b => if a = b then (1 : ℚ) else 0) ["aa", "bb"] ["bb", "cc"]
    1 ["bb"] [("bb", "bb")] (by simp) (by simp) (fun t => by norm_num)
    (by
      have e1 : ("aa" : String) ≠ "bb" := by decide
      have e2 : ("aa" : String) ≠ "cc" := by decide
      have e3 : ("bb" : String) ≠ "cc" := by decide
      have e4 : ("bb" : String) ≠ "" := by decide
      have e5 : ("cc" : String) ≠ "bb" := by decide
      norm_num [softTfidfLoop, bestUnusedMatch, e1, e2, e3, e4, e5])

/-! ## C9: the legacy character-similarity strategy is a dissimilarity -/

lemma lcsL_self : ∀ l : List Char, lcsL l l = l.length := by
  intro l
  induction l with
  | nil => simp [lcsL]
  | cons x xs ih => simp [lcsL, ih]

lemma fuzzRatio_self (s : String) : fuzzRatio s s = 100 := by
  unfold fuzzRatio
  by_cases h : s.data.length + s.data.length = 0
  · rw [if_pos h]
  · rw [if_neg h, lcsL_self]
    have hn : s.data.length ≠ 0 := by omega
    have hq : ((s.data.length : ℚ)) ≠ 0 := by exact_mod_cast hn
    have hq2 : ((s.length : ℚ)) ≠ 0 := hq
    field_simp
    ring

/-- C9.  The legacy `_character_similarity` value is `1 - fuzz.ratio/100`
(scaled by 0.7 on a large length mismatch) — a *dissimilarity*: (i) two
non-empty inputs with identical `_normalize_text` forms get value 0.0;
(ii) on the non-degenerate path the value is exactly
`charDissimScaled ratio mismatch`; (iii) `charDissimScaled` is antitone in
the ratio, so greater character agreement yields a smaller contribution (the
combiner adds `0.25 · best_char` of these values). -/
theorem C9_character_similarity_is_dissimilarity :
    (∀ s b : String, s ≠ "" → b ≠ "" →
      normalizeLegacy s = normalizeLegacy b →
      characterSimilarityOne s b = 0) ∧
    (∀ s b : String, s ≠ "" → b ≠ "" →
      (normalizeLegacy s).data.length ≠ 0 ∨
        (normalizeLegacy b).data.length ≠ 0 →
      characterSimilarityOne s b =
        charDissimScaled
          (fuzzRatio (normalizeLegacy s) (normalizeLegacy b))
          (decide (((min (normalizeLegacy s).data.length
              (normalizeLegacy b).data.length : ℚ) /
            ((max (normalizeLegacy s).data.length
              (normalizeLegacy b).data.length : ℚ))) < 0.5))) ∧
    (∀ (r r' : ℚ) (mismatch : Bool), r ≤ r' →
      charDissimScaled r' mismatch ≤ charDissimScaled r mismatch) := by
  refine ⟨?_, ?_, ?_⟩
  · intro s b hs hb heq
    unfold characterSimilarityOne
    rw [if_neg (by
      intro h
      rcases h with h | h
      · exact hs h
      · exact hb h)]
    rw [heq]
    dsimp only
    rw [fuzzRatio_self]
    split
    · rfl
    · split <;> norm_num
  · intro s b hs hb hlen
    unfold characterSimilarityOne charDissimScaled
    rw [if_neg (by
      intro h
      rcases h with h | h
      · exact hs h
      · exact hb h)]
    dsimp only
    have hml : (normalizeLegacy s).data.length ⊔
        (normalizeLegacy b).data.length ≠ 0 := by
      intro h0
      rw [Nat.max_eq_zero_iff] at h0
      tauto
    rw [if_neg hml]
    push_cast
    by_cases hcond : ((min (normalizeLegacy s).data.length
        (normalizeLegacy b).data.length : ℚ) /
      ((max (normalizeLegacy s).data.length
        (normalizeLegacy b).data.length : ℚ))) < 0.5
    · rw [if_pos hcond, decide_eq_true hcond]
      simp
    · rw [if_neg hcond, decide_eq_false hcond]
      simp
  · intro r r' mismatch h
    unfold charDissimScaled
    apply mul_le_mul_of_nonneg_right (by linarith)
    split <;> norm_num

/-- Witness for C9 at concrete inputs: `"ab!"` and `"AB"` normalize
identically and get character similarity 0; the dissimilarity formula is
antitone between ratios 50 and 60. -/
theorem C9_witness :
    characterSimilarityOne "ab!" "AB" = 0 ∧
    charDissimScaled 60 true ≤ charDissimScaled 50 true :=
  ⟨C9_character_similarity_is_dissimilarity.1 "ab!" "AB"
      (by decide) (by decide) (by decide),
   C9_character_similarity_is_dissimilarity.2.2 50 60 true (by norm_num)⟩

/-! ## C8: idempotence and output shape of the advanced normalizer -/

lemma squeezeL_sublist : ∀ l : List Char, (squeezeL l).Sublist l := by
  intro l
  induction l with
  | nil => simp [squeezeL]
  | cons c cs ih =>
    cases cs with
    | nil => simp [squeezeL]
    | cons d rest =>
      rw [squeezeL]
      split
      · exact ih.trans (List.sublist_cons_self c (d :: rest))
      · exact List.Sublist.cons₂ c ih

lemma squeezeL_head_space : ∀ {l : List Char} {e : Char},
    (squeezeL l).head? = some e → e = ' ' → l.head? = some ' ' := by
  intro l
  induction l with
  | nil => intro e h _; cases h
  | cons c cs ih =>
    cases cs with
    | nil =>
      intro e h he
      injection h with h'
      rw [h', he]
      rfl
    | cons d rest =>
      intro e h he
      rw [squeezeL] at h
      split at h
      · rename_i hcd
        rw [Bool.and_eq_true] at hcd
        rw [List.head?_cons, beq_iff_eq.mp hcd.1]
      · rename_i hcd
        injection h with h'
        rw [h', he]
        rfl

lemma squeezeL_chain' : ∀ l : List Char,
    (squeezeL l).Chain' (fun a b => ¬(a = ' ' ∧ b = ' ')) := by
  intro l
  induction l with
  | nil => simp [squeezeL]
  | cons c cs ih =>
    cases cs with
    | nil => simp [squeezeL]
    | cons d rest =>
      rw [squeezeL]
      split
      · exact ih
      · rename_i hnot
        cases hsq : squeezeL (d :: rest) with
        | nil => simp
        | cons e es =>
          rw [hsq] at ih
          rw [List.chain'_cons]
          refine ⟨?_, ih⟩
          intro hce
          have hd := squeezeL_head_space (e := e) (by rw [hsq]; rfl) hce.2
          injection hd with hd'
          rw [Bool.and_eq_true] at hnot
          exact hnot ⟨beq_iff_eq.mpr hce.1, beq_iff_eq.mpr hd'⟩

lemma squeezeL_eq_self : ∀ {l : List Char},
    l.Chain' (fun a b => ¬(a = ' ' ∧ b = ' ')) → squeezeL l = l := by
  intro l
  induction l with
  | nil => intro _; rfl
  | cons c cs ih =>
    intro h
    cases cs with
    | nil => rfl
    | cons d rest =>
      have hrel : ¬(c = ' ' ∧ d = ' ') := (List.chain'_cons.mp h).1
      rw [squeezeL, if_neg (by
        rw [Bool.and_eq_true]
        intro hb
        exact hrel ⟨beq_iff_eq.mp hb.1, beq_iff_eq.mp hb.2⟩)]
      rw [ih (List.Chain'.tail h)]

lemma head?_dropWhile_ne (p : Char → Bool) :
    ∀ (l : List Char) (c : Char), (l.dropWhile p).head? = some c →
      p c = false := by
  intro l
  induction l with
  | nil => intro c h; cases h
  | cons d ds ih =>
    intro c h
    rw [List.dropWhile_cons] at h
    split at h
    · exact ih c h
    · rename_i hpd
      injection h with h'
      subst h'
      exact Bool.eq_false_iff.mpr hpd

lemma dropWhile_eq_self_of_head (p : Char → Bool) (l : List Char)
    (h : ∀ c, l.head? = some c → p c = false) : l.dropWhile p = l := by
  cases l with
  | nil => rfl
  | cons c cs =>
    rw [List.dropWhile_cons, if_neg]
    rw [h c rfl]
    simp

lemma chain'_dropWhile {R : Char → Char → Prop} (p : Char → Bool) :
    ∀ {l : List Char}, l.Chain' R → (l.dropWhile p).Chain' R := by
  intro l
  induction l with
  | nil => intro h; exact h
  | cons c cs ih =>
    intro h
    rw [List.dropWhile_cons]
    split
    · exact ih (List.Chain'.tail h)
    · exact h

lemma chain'_reverse_noTwo {m : List Char}
    (hm : m.Chain' (fun a b => ¬(a = ' ' ∧ b = ' '))) :
    m.reverse.Chain' (fun a b => ¬(a = ' ' ∧ b = ' ')) := by
  rw [List.chain'_reverse]
  refine List.Chain'.imp ?_ hm
  intro a b hab
  intro hba
  exact hab ⟨hba.2, hba.1⟩

lemma chain'_trimRightSpL {l : List Char}
    (h : l.Chain' (fun a b => ¬(a = ' ' ∧ b = ' '))) :
    (trimRightSpL l).Chain' (fun a b => ¬(a = ' ' ∧ b = ' ')) := by
  unfold trimRightSpL
  exact chain'_reverse_noTwo (chain'_dropWhile _ (chain'_reverse_noTwo h))

lemma getLast?_trimRightSpL_ne (l : List Char) (c : Char)
    (h : (trimRightSpL l).getLast? = some c) : c ≠ ' ' := by
  unfold trimRightSpL at h
  rw [List.getLast?_reverse] at h
  have := head?_dropWhile_ne _ _ _ h
  intro hc
  rw [hc] at this
  simp at this

lemma trimRightSpL_front (l : List Char) : trimRightSpL l <+: l := by
  apply List.reverse_suffix.mp
  unfold trimRightSpL
  rw [List.reverse_reverse]
  exact List.dropWhile_suffix _

lemma head?_trimRightSpL (l : List Char) (c : Char)
    (h : (trimRightSpL l).head? = some c) : l.head? = some c := by
  rcases trimRightSpL_front l with ⟨t, ht⟩
  cases htr : trimRightSpL l with
  | nil => rw [htr] at h; cases h
  | cons d ds =>
    rw [htr] at h ht
    injection h with h'
    subst h'
    rw [← ht]
    rfl

lemma trimLeftSpL_eq_self {l : List Char} (h : l.head? ≠ some ' ') :
    trimLeftSpL l = l := by
  apply dropWhile_eq_self_of_head
  intro c hc
  have : c ≠ ' ' := fun he => h (he ▸ hc)
  simp [this]

lemma trimRightSpL_eq_self {l : List Char} (h : l.getLast? ≠ some ' ') :
    trimRightSpL l = l := by
  unfold trimRightSpL
  rw [dropWhile_eq_self_of_head, List.reverse_reverse]
  intro c hc
  rw [List.head?_reverse] at hc
  have : c ≠ ' ' := fun he => h (he ▸ hc)
  simp [this]

lemma mem_trimSpL {c : Char} {l : List Char} (h : c ∈ trimSpL l) : c ∈ l := by
  unfold trimSpL at h
  rcases trimRightSpL_front (trimLeftSpL l) with ⟨t, ht⟩
  have h1 : c ∈ trimLeftSpL l := by
    rw [← ht]
    exact List.mem_append_left t h
  exact (List.dropWhile_sublist _).subset h1

lemma map_eq_self_of {f : Char → Char} :
    ∀ {l : List Char}, (∀ c ∈ l, f c = c) → l.map f = l := by
  intro l
  induction l with
  | nil => intro _; rfl
  | cons c cs ih =>
    intro h
    rw [List.map_cons, h c (List.mem_cons_self c cs),
      ih (fun d hd => h d (List.mem_cons_of_mem c hd))]

lemma replaceAmpL_eq_self : ∀ {l : List Char}, '&' ∉ l →
    replaceAmpL l = l := by
  intro l
  induction l with
  | nil => intro _; rfl
  | cons c cs ih =>
    intro h
    have hc : ¬(c == '&') = true := by
      intro hb
      exact h (beq_iff_eq.mp hb ▸ List.mem_cons_self c cs)
    unfold replaceAmpL
    rw [List.map_cons, List.flatten_cons, if_neg hc]
    have := ih (fun hm => h (List.mem_cons_of_mem c hm))
    unfold replaceAmpL at this
    rw [this]
    rfl

lemma toUpper_fixed {c : Char} (h : isAllowedAdv c = true) :
    c.toUpper = c := by
  unfold Char.toUpper
  rw [if_neg]
  intro hrange
  have hval : 97 ≤ c.toNat := hrange.1
  unfold isAllowedAdv isUpperAZ isDigit09 at h
  simp only [Bool.or_eq_true, Bool.and_eq_true, decide_eq_true_eq,
    beq_iff_eq] at h
  rcases h with (⟨_, h2⟩ | ⟨_, h2⟩) | h2
  · have hle : c.toNat ≤ 90 := h2
    omega
  · have hle : c.toNat ≤ 57 := h2
    omega
  · exact absurd hval (by rw [h2]; decide)

lemma space_allowed : isAllowedAdv ' ' = true := by decide

lemma normalizeTextL_good (nfkd : List Char → List Char) (l : List Char) :
    (∀ c ∈ normalizeTextL nfkd l, isAllowedAdv c = true) ∧
    (normalizeTextL nfkd l).Chain' (fun a b => ¬(a = ' ' ∧ b = ' ')) ∧
    (normalizeTextL nfkd l).head? ≠ some ' ' ∧
    (normalizeTextL nfkd l).getLast? ≠ some ' ' := by
  unfold normalizeTextL
  by_cases hl : l = []
  · rw [if_pos hl]
    refine ⟨by simp, by simp, by simp, by simp⟩
  · rw [if_neg hl]
    dsimp only
    refine ⟨?_, ?_, ?_, ?_⟩
    · intro c hc
      have h1 := mem_trimSpL hc
      have h2 := (squeezeL_sublist _).subset h1
      rcases List.mem_map.mp h2 with ⟨a, _, rfl⟩
      by_cases ha : isAllowedAdv a = true
      · rw [if_pos ha]
        exact ha
      · rw [if_neg ha]
        exact space_allowed
    · exact chain'_trimRightSpL (chain'_dropWhile _ (squeezeL_chain' _))
    · intro hh
      have h1 := head?_trimRightSpL _ _ hh
      have h2 := head?_dropWhile_ne _ _ _ h1
      simp at h2
    · intro hh
      exact getLast?_trimRightSpL_ne _ _ hh rfl

lemma normalizeTextL_fix (nfkd : List Char → List Char)
    (hnfkd : ∀ l : List Char, (∀ c ∈ l, isAllowedAdv c = true) → nfkd l = l)
    (y : List Char)
    (h1 : ∀ c ∈ y, isAllowedAdv c = true)
    (h2 : y.Chain' (fun a b => ¬(a = ' ' ∧ b = ' ')))
    (h3 : y.head? ≠ some ' ')
    (h4 : y.getLast? ≠ some ' ') :
    normalizeTextL nfkd y = y := by
  unfold normalizeTextL
  by_cases hy : y = []
  · rw [if_pos hy, hy]
  · rw [if_neg hy]
    dsimp only
    have hupper : y.map Char.toUpper = y :=
      map_eq_self_of (fun c hc => toUpper_fixed (h1 c hc))
    rw [hupper, hnfkd y h1]
    have hamp : replaceAmpL y = y := by
      apply replaceAmpL_eq_self
      intro hm
      have := h1 '&' hm
      simp [isAllowedAdv, isUpperAZ, isDigit09] at this
    rw [hamp]
    have hdash : y.map (fun c => if c == '–' || c == '—' then '-' else c)
        = y := by
      apply map_eq_self_of
      intro c hc
      have hall := h1 c hc
      rw [if_neg]
      intro hb
      rw [Bool.or_eq_true] at hb
      rcases hb with hb' | hb' <;>
        · rw [beq_iff_eq.mp hb'] at hall
          simp [isAllowedAdv, isUpperAZ, isDigit09] at hall
    rw [hdash]
    have hfilter : y.map (fun c => if isAllowedAdv c then c else ' ')
        = y := by
      apply map_eq_self_of
      intro c hc
      rw [if_pos (h1 c hc)]
    rw [hfilter, squeezeL_eq_self h2]
    unfold trimSpL
    rw [trimLeftSpL_eq_self h3, trimRightSpL_eq_self h4]

/-- C8.  The advanced normalizer is idempotent, and its output contains only
characters in `[A-Z0-9 ]`, with no two adjacent spaces and no leading or
trailing space.  The external NFKD-decompose-and-strip-combining-marks step
is abstracted as `nfkd`, constrained by its defining property on the
normalizer's own output alphabet: ASCII upper-case letters, digits and spaces
are NFKD-invariant and carry no combining marks, so `nfkd` fixes strings made
of them. -/
theorem C8_normalize_idempotent (nfkd : List Char → List Char)
    (hnfkd : ∀ l : List Char, (∀ c ∈ l, isAllowedAdv c = true) → nfkd l = l)
    (x : String) :
    normalizeText nfkd (normalizeText nfkd x) = normalizeText nfkd x ∧
    (∀ c ∈ (normalizeText nfkd x).data, isAllowedAdv c = true) ∧
    (normalizeText nfkd x).data.Chain' (fun a b => ¬(a = ' ' ∧ b = ' ')) ∧
    (normalizeText nfkd x).data.head? ≠ some ' ' ∧
    (normalizeText nfkd x).data.getLast? ≠ some ' ' := by
  obtain ⟨h1, h2, h3, h4⟩ := normalizeTextL_good nfkd x.data
  refine ⟨?_, h1, h2, h3, h4⟩
  unfold normalizeText
  exact congrArg String.mk (normalizeTextL_fix nfkd hnfkd _ h1 h2 h3 h4)

/-- Witness for C8: `nfkd = id` (which trivially fixes allowed strings) at a
concrete messy input. -/
theorem C8_witness :
    normalizeText id (normalizeText id " a,,B &  c!") =
      normalizeText id " a,,B &  c!" ∧
    (∀ c ∈ (normalizeText id " a,,B &  c!").data, isAllowedAdv c = true) ∧
    (normalizeText id " a,,B &  c!").data.Chain'
      (fun a b => ¬(a = ' ' ∧ b = ' ')) ∧
    (normalizeText id " a,,B &  c!").data.head? ≠ some ' ' ∧
    (normalizeText id " a,,B &  c!").data.getLast? ≠ some ' ' :=
  C8_normalize_idempotent id (fun _ _ => rfl) " a,,B &  c!"

end Spinecat
